import Mathlib

/-!
Verification of the `_pymodules` in-memory module registry
(`src/pyoxidizer/src/pyembed/pymodules_module.rs`).

The embedding models blobs as `List Nat` (one element per byte), module
names as raw byte strings (`List Nat`; the Rust code never validates the
UTF-8, it reinterprets the byte slice with `from_utf8_unchecked`, so byte
strings are faithful), `HashMap<&str, &[u8]>` as an association list with
overwrite-on-insert semantics, and `HashSet<&str>` as a `Finset`.

Rust panics (a failed `unwrap` on a `Cursor` read, or an out-of-range
slice index `&data[a..b]`) are modelled as the `ParseErr.fatal` outcome,
distinct from the one error the function actually returns
(`Err("modules data too small")`, modelled as `ParseErr.tooSmall`).
-/

/-- A byte string: one `Nat` per byte. -/
abbrev Bytes := List Nat

/-- The model of `HashMap<&str, &[u8]>`: an association list from name
bytes to payload bytes, kept duplicate-free by `mapInsert`. -/
abbrev BlobMap := List (Bytes × Bytes)

/-- Lookup in the association-list model of `HashMap` (`HashMap::get`). -/
def mapLookup (k : Bytes) : BlobMap → Option Bytes
  | [] => none
  | (k', v) :: rest => if k' = k then some v else mapLookup k rest

/-- Remove every binding of key `k` (helper for overwrite-on-insert). -/
def mapErase (k : Bytes) : BlobMap → BlobMap
  | [] => []
  | (k', v) :: rest => if k' = k then mapErase k rest else (k', v) :: mapErase k rest

/-- `HashMap::insert`: the new binding replaces any existing binding of
the same key (last write wins). -/
def mapInsert (k v : Bytes) (m : BlobMap) : BlobMap :=
  (k, v) :: mapErase k m

/-- `HashMap::contains_key`. -/
def mapContains (k : Bytes) (m : BlobMap) : Bool :=
  (mapLookup k m).isSome

/-- The keys of the map, in list order. -/
def mapKeys (m : BlobMap) : List Bytes :=
  m.map Prod.fst

/-- Outcomes of `parse_modules_blob`.  `tooSmall` is the single error the
Rust function returns (`Err("modules data too small")`); `fatal` models a
Rust panic: a failed `.unwrap()` on a `Cursor` read past the end of the
buffer, or a slice index `&data[a..b]` with `b > data.len()`.  The
function has no other failure mode — in particular it has no
`Malformed` error. -/
inductive ParseErr where
  | tooSmall
  | fatal
  deriving DecidableEq

/-- Little-endian 32-bit decode of a 4-byte list. -/
def le32of : Bytes → Nat
  | [a, b, c, d] => a + 256 * (b + 256 * (c + 256 * d))
  | _ => 0

/-- `reader.read_u32::<LittleEndian>()` at absolute position `pos`:
succeeds iff 4 bytes remain (`Cursor`/`read_exact` semantics), returning
the little-endian value. -/
def readU32 (data : Bytes) (pos : Nat) : Option Nat :=
  if pos + 4 ≤ data.length then some (le32of ((data.drop pos).take 4)) else none

/-- The index-reading loop of `parse_modules_blob`: starting at `pos`,
read `count` records of two `u32`s (`name_length`, `data_length`);
return the records in order together with the cursor position after the
loop.  `none` models the panic of an `unwrap` on a short read. -/
def readIndex (data : Bytes) (pos : Nat) : Nat → Option (List (Nat × Nat) × Nat)
  | 0 => some ([], pos)
  | n + 1 =>
    match readU32 data pos, readU32 data (pos + 4) with
    | some nameLength, some dataLength =>
      match readIndex data (pos + 8) n with
      | some (rest, endPos) => some ((nameLength, dataLength) :: rest, endPos)
      | none => none
    | _, _ => none

/-- The Rust slice `&data[start..start + len]`: defined iff
`start + len ≤ data.len()` (otherwise the program panics). -/
def sliceAt (data : Bytes) (start len : Nat) : Option Bytes :=
  if start + len ≤ data.length then some ((data.drop start).take len) else none

/-- The second loop of `parse_modules_blob`: walk the index records,
slicing each name (cursor `namePos`) and each value
(`valuesStart + valueOff`), inserting into the map in index order.
`none` models a slice-bounds panic. -/
def buildMap (data : Bytes) (valuesStart : Nat) :
    List (Nat × Nat) → Nat → Nat → BlobMap → Option BlobMap
  | [], _, _, acc => some acc
  | (nameLength, valueLength) :: rest, namePos, valueOff, acc =>
    match sliceAt data namePos nameLength,
        sliceAt data (valuesStart + valueOff) valueLength with
    | some name, some value =>
      buildMap data valuesStart rest (namePos + nameLength) (valueOff + valueLength)
        (mapInsert name value acc)
    | _, _ => none

/-- `parse_modules_blob`: parse a blob into a map of module name to
module data.  Mirrors the source exactly: reject blobs shorter than 4
bytes, read the little-endian entry count, read `count` index records,
compute `values_start_offset` as the position after the index plus the
total of the name lengths, then slice names and values. -/
def parse_modules_blob (data : Bytes) : Except ParseErr BlobMap :=
  if data.length < 4 then .error .tooSmall
  else
    match readU32 data 0 with
    | none => .error .fatal
    | some count =>
      match readIndex data 4 count with
      | none => .error .fatal
      | some (index, indexEnd) =>
        let totalNamesLength := (index.map Prod.fst).sum
        let valuesStart := indexEnd + totalNamesLength
        match buildMap data valuesStart index indexEnd 0 [] with
        | none => .error .fatal
        | some res => .ok res

/-- `str::rfind(".")` on a byte string: the byte index of the last `.`
(byte 46), if any.  (On valid UTF-8 the byte index of `.` and the char
search coincide, since UTF-8 continuation bytes are ≥ 128.) -/
def rfindDot : Bytes → Option Nat
  | [] => none
  | b :: rest =>
    match rfindDot rest with
    | some i => some (i + 1)
    | none => if b = 46 then some 0 else none

/-- `populate_packages`: repeatedly strip the last dotted component,
inserting every strictly shorter dotted ancestor of `name` into the
package set. -/
def populate_packages (packages : Finset Bytes) (name : Bytes) : Finset Bytes :=
  match h : rfindDot name with
  | some idx => populate_packages (insert (name.take idx) packages) (name.take idx)
  | none => packages
termination_by name.length
decreasing_by
  have hlt : ∀ (l : Bytes) (i : Nat), rfindDot l = some i → i < l.length := by
    intro l
    induction l with
    | nil => intro i hi; simp [rfindDot] at hi
    | cons b rest ih =>
      intro i hi
      simp only [rfindDot] at hi
      cases hr : rfindDot rest with
      | some j =>
        rw [hr] at hi
        have := ih j hr
        simp at hi
        simp [List.length_cons]
        omega
      | none =>
        rw [hr] at hi
        by_cases hb : b = 46
        · simp [hb] at hi
          simp [List.length_cons]
          omega
        · simp [hb] at hi
  have := hlt name idx h
  simp [List.length_take]
  omega

/-- The error a failed `get_source`/`get_code` raises
(`PyErr::new::<KeyError, _>(py, "module not available")`). -/
inductive GetErr where
  | keyError
  deriving DecidableEq

/-- The `ModulesType` Python class data: the two parsed mappings and the
derived package set. -/
structure ModulesType where
  py_modules : BlobMap
  pyc_modules : BlobMap
  packages : Finset Bytes

/-- `ModulesType::get_source`: look the name up in `py_modules`,
returning the borrowed payload, or a `KeyError` when absent.  (The
`PyMemoryView_FromMemory` wrapping is host-runtime glue and is elided:
the view is byte-identical to the stored payload.) -/
def ModulesType.get_source (m : ModulesType) (name : Bytes) : Except GetErr Bytes :=
  match mapLookup name m.py_modules with
  | some value => .ok value
  | none => .error .keyError

/-- `ModulesType::get_code`: same as `get_source`, against `pyc_modules`. -/
def ModulesType.get_code (m : ModulesType) (name : Bytes) : Except GetErr Bytes :=
  match mapLookup name m.pyc_modules with
  | some value => .ok value
  | none => .error .keyError

/-- `ModulesType::has_module`: true iff the name is a key of
`py_modules` or of `pyc_modules` (short-circuiting). -/
def ModulesType.has_module (m : ModulesType) (name : Bytes) : Bool :=
  mapContains name m.py_modules || mapContains name m.pyc_modules

/-- `ModulesType::is_package`: membership in the derived package set. -/
def ModulesType.is_package (m : ModulesType) (name : Bytes) : Bool :=
  decide (name ∈ m.packages)

/-- The package-derivation pass of `make_modules`: fold
`populate_packages` over a list of names, starting from the empty set. -/
def derivePackages (names : List Bytes) : Finset Bytes :=
  names.foldl populate_packages ∅

/-- The registry value `make_modules` builds once both parses succeed:
the two maps plus the package set populated from the source-map keys
first, then the compiled-map keys (the two `for` loops). -/
def mkModulesType (py_modules pyc_modules : BlobMap) : ModulesType :=
  ⟨py_modules, pyc_modules,
    (mapKeys pyc_modules).foldl populate_packages
      ((mapKeys py_modules).foldl populate_packages ∅)⟩

/-- `make_modules`: parse the source blob, then the compiled-code blob,
short-circuiting on the first parse error; derive the package set from
the keys of both maps (source keys first, then compiled keys, exactly as
the two `for` loops do); wrap the three structures.  (The conversion of
the error message into a Python `ValueError` is host glue; the parse
error itself is propagated.) -/
def make_modules (pyData pycData : Bytes) : Except ParseErr ModulesType :=
  match parse_modules_blob pyData with
  | .error e => .error e
  | .ok py_modules =>
    match parse_modules_blob pycData with
    | .error e => .error e
    | .ok pyc_modules => .ok (mkModulesType py_modules pyc_modules)

/-- Encode one `u32` little-endian (the inverse of `le32of` on values
below `2^32`); used to build blobs per the §3 layout. -/
def encodeU32 (n : Nat) : Bytes :=
  [n % 256, n / 256 % 256, n / 65536 % 256, n / 16777216 % 256]

/-- The per-entry index record bytes: `name_length` then `data_length`. -/
def indexBytes (entries : BlobMap) : Bytes :=
  (entries.map (fun e => encodeU32 e.1.length ++ encodeU32 e.2.length)).flatten

/-- The names section: concatenation of the names, in entry order. -/
def namesJoin (entries : BlobMap) : Bytes :=
  (entries.map Prod.fst).flatten

/-- The values section: concatenation of the payloads, in entry order. -/
def valuesJoin (entries : BlobMap) : Bytes :=
  (entries.map Prod.snd).flatten

/-- Encode a list of (name, payload) entries into a blob per the §3
layout: little-endian `u32` count, the index records, the concatenated
names, the concatenated payloads. -/
def encodeBlob (entries : BlobMap) : Bytes :=
  encodeU32 entries.length ++ indexBytes entries ++ namesJoin entries ++ valuesJoin entries

/-- `dotParent x n` holds when the registered name `n` begins with
`x` followed by a `.` (byte 46). -/
def dotParent (x n : Bytes) : Prop :=
  n.take (x.length + 1) = x ++ [46]

instance (x n : Bytes) : Decidable (dotParent x n) := by
  unfold dotParent; infer_instance

/-- The (name_length, data_length) records that the encoded index of
`entries` declares. -/
def lensOf (entries : BlobMap) : List (Nat × Nat) :=
  entries.map (fun e => (e.1.length, e.2.length))

/-- Folding `HashMap::insert` over a list of entries, in order. -/
def insertAll (acc : BlobMap) (es : BlobMap) : BlobMap :=
  es.foldl (fun m e => mapInsert e.1 e.2 m) acc

theorem insertAll_nil (acc : BlobMap) : insertAll acc [] = acc := rfl

theorem insertAll_cons (acc : BlobMap) (e : Bytes × Bytes) (es : BlobMap) :
    insertAll acc (e :: es) = insertAll (mapInsert e.1 e.2 acc) es := rfl

theorem mapLookup_erase_ne {k k' : Bytes} (m : BlobMap) (h : k' ≠ k) :
    mapLookup k' (mapErase k m) = mapLookup k' m := by
  induction m with
  | nil => rfl
  | cons e rest ih =>
    obtain ⟨a, b⟩ := e
    by_cases ha : a = k
    · subst ha
      have h' : a ≠ k' := fun hc => h hc.symm
      simp [mapErase, mapLookup, h', ih]
    · by_cases ha' : a = k'
      · subst ha'
        simp [mapErase, mapLookup, ha]
      · simp [mapErase, mapLookup, ha, ha', ih]

theorem mapLookup_erase_self (k : Bytes) (m : BlobMap) :
    mapLookup k (mapErase k m) = none := by
  induction m with
  | nil => rfl
  | cons e rest ih =>
    obtain ⟨a, b⟩ := e
    by_cases ha : a = k <;> simp [mapErase, ha, mapLookup, ih]

theorem mapLookup_insert_self (k v : Bytes) (m : BlobMap) :
    mapLookup k (mapInsert k v m) = some v := by
  simp [mapInsert, mapLookup]

theorem mapLookup_insert_ne {k k' : Bytes} (v : Bytes) (m : BlobMap) (h : k' ≠ k) :
    mapLookup k' (mapInsert k v m) = mapLookup k' m := by
  simp [mapInsert, mapLookup, Ne.symm h, mapLookup_erase_ne m h]

theorem mapKeys_cons (a b : Bytes) (rest : BlobMap) :
    mapKeys ((a, b) :: rest) = a :: mapKeys rest := rfl

theorem mem_mapKeys_iff {k : Bytes} {m : BlobMap} :
    k ∈ mapKeys m ↔ (mapLookup k m).isSome := by
  induction m with
  | nil => simp [mapKeys, mapLookup]
  | cons e rest ih =>
    obtain ⟨a, b⟩ := e
    by_cases ha : a = k
    · subst ha; simp [mapKeys_cons, mapLookup]
    · simp [mapKeys_cons, mapLookup, ha, ih, Ne.symm ha]

theorem mem_keys_erase {x k : Bytes} {m : BlobMap} :
    x ∈ mapKeys (mapErase k m) ↔ x ∈ mapKeys m ∧ x ≠ k := by
  by_cases hx : x = k
  · subst hx; simp [mem_mapKeys_iff, mapLookup_erase_self]
  · simp [mem_mapKeys_iff, mapLookup_erase_ne _ hx, hx]

theorem keys_erase_sublist (k : Bytes) (m : BlobMap) :
    List.Sublist (mapKeys (mapErase k m)) (mapKeys m) := by
  induction m with
  | nil => simp [mapKeys, mapErase]
  | cons e rest ih =>
    obtain ⟨a, b⟩ := e
    by_cases ha : a = k
    · rw [show mapErase k ((a, b) :: rest) = mapErase k rest from by simp [mapErase, ha],
        mapKeys_cons]
      exact ih.trans (List.sublist_cons_self _ _)
    · rw [show mapErase k ((a, b) :: rest) = (a, b) :: mapErase k rest from by
        simp [mapErase, ha], mapKeys_cons, mapKeys_cons]
      exact List.Sublist.cons₂ _ ih

theorem nodup_keys_insert {k v : Bytes} {m : BlobMap} (h : (mapKeys m).Nodup) :
    (mapKeys (mapInsert k v m)).Nodup := by
  simp only [mapInsert, mapKeys, List.map_cons]
  refine List.nodup_cons.mpr ⟨?_, h.sublist (keys_erase_sublist k m)⟩
  intro hmem
  exact (mem_keys_erase.mp hmem).2 rfl

theorem mem_keys_insert {x k v : Bytes} {m : BlobMap} :
    x ∈ mapKeys (mapInsert k v m) ↔ x = k ∨ x ∈ mapKeys m := by
  by_cases hx : x = k
  · subst hx; simp [mem_mapKeys_iff, mapLookup_insert_self]
  · simp [mem_mapKeys_iff, mapLookup_insert_ne _ _ hx, hx]

theorem insertAll_append (acc : BlobMap) (l₁ l₂ : BlobMap) :
    insertAll acc (l₁ ++ l₂) = insertAll (insertAll acc l₁) l₂ :=
  List.foldl_append _ _ _ _

theorem mapLookup_insertAll_of_not_mem {k : Bytes} {es : BlobMap} (acc : BlobMap)
    (h : k ∉ es.map Prod.fst) :
    mapLookup k (insertAll acc es) = mapLookup k acc := by
  induction es generalizing acc with
  | nil => rfl
  | cons e rest ih =>
    obtain ⟨a, b⟩ := e
    simp only [List.map_cons, List.mem_cons] at h
    push_neg at h
    rw [insertAll_cons, ih _ h.2]
    exact mapLookup_insert_ne _ _ h.1

theorem mapLookup_insertAll_mem {k v : Bytes} {es : BlobMap} (acc : BlobMap)
    (hmem : (k, v) ∈ es) (hnd : (es.map Prod.fst).Nodup) :
    mapLookup k (insertAll acc es) = some v := by
  induction es generalizing acc with
  | nil => simp at hmem
  | cons e rest ih =>
    obtain ⟨a, b⟩ := e
    simp only [List.map_cons, List.nodup_cons] at hnd
    rcases List.mem_cons.mp hmem with he | he
    · have ha : k = a := congrArg Prod.fst he
      have hb : v = b := congrArg Prod.snd he
      subst ha; subst hb
      rw [insertAll_cons, mapLookup_insertAll_of_not_mem _ hnd.1]
      exact mapLookup_insert_self _ _ _
    · exact insertAll_cons .. ▸ ih _ he hnd.2

theorem nodup_keys_insertAll {es : BlobMap} (acc : BlobMap)
    (h : (mapKeys acc).Nodup) : (mapKeys (insertAll acc es)).Nodup := by
  induction es generalizing acc with
  | nil => exact h
  | cons e rest ih => exact insertAll_cons .. ▸ ih _ (nodup_keys_insert h)

theorem mem_keys_insertAll {x : Bytes} {es : BlobMap} (acc : BlobMap) :
    x ∈ mapKeys (insertAll acc es) ↔ x ∈ mapKeys acc ∨ x ∈ es.map Prod.fst := by
  induction es generalizing acc with
  | nil => simp [insertAll_nil]
  | cons e rest ih =>
    obtain ⟨a, b⟩ := e
    rw [insertAll_cons, ih]
    simp only [mem_keys_insert, List.map_cons, List.mem_cons]
    tauto

theorem length_insertAll_nil (es : BlobMap) :
    (insertAll [] es).length = ((es.map Prod.fst).dedup).length := by
  have h₁ : (mapKeys (insertAll [] es)).Nodup :=
    nodup_keys_insertAll [] (by simp [mapKeys])
  have h₂ : ((es.map Prod.fst).dedup).Nodup := List.nodup_dedup _
  have hperm : (mapKeys (insertAll [] es)).Perm ((es.map Prod.fst).dedup) := by
    rw [List.perm_ext_iff_of_nodup h₁ h₂]
    intro a
    rw [mem_keys_insertAll, List.mem_dedup]
    simp [mapKeys]
  have : (mapKeys (insertAll [] es)).length = (insertAll [] es).length := by
    simp [mapKeys]
  rw [← this, hperm.length_eq]


theorem length_encodeU32 (n : Nat) : (encodeU32 n).length = 4 := rfl

theorem le32of_encodeU32 {n : Nat} (h : n < 2 ^ 32) : le32of (encodeU32 n) = n := by
  simp only [encodeU32, le32of]
  omega

theorem readU32_at (pre rest : Bytes) {n : Nat} (hn : n < 2 ^ 32) :
    readU32 (pre ++ encodeU32 n ++ rest) pre.length = some n := by
  rw [List.append_assoc]
  have hlen : pre.length + 4 ≤ (pre ++ (encodeU32 n ++ rest)).length := by
    simp [length_encodeU32]
  rw [readU32, if_pos hlen, List.drop_left, List.take_left' (length_encodeU32 n),
    le32of_encodeU32 hn]

theorem sliceAt_at (pre mid rest : Bytes) :
    sliceAt (pre ++ mid ++ rest) pre.length mid.length = some mid := by
  rw [List.append_assoc]
  have hlen : pre.length + mid.length ≤ (pre ++ (mid ++ rest)).length := by simp
  rw [sliceAt, if_pos hlen, List.drop_left, List.take_left]

theorem namesJoin_cons (e : Bytes × Bytes) (tl : BlobMap) :
    namesJoin (e :: tl) = e.1 ++ namesJoin tl := by
  simp [namesJoin]

theorem valuesJoin_cons (e : Bytes × Bytes) (tl : BlobMap) :
    valuesJoin (e :: tl) = e.2 ++ valuesJoin tl := by
  simp [valuesJoin]

theorem indexBytes_cons (e : Bytes × Bytes) (tl : BlobMap) :
    indexBytes (e :: tl) = encodeU32 e.1.length ++ encodeU32 e.2.length ++ indexBytes tl := by
  simp [indexBytes]

theorem length_indexBytes (es : BlobMap) : (indexBytes es).length = 8 * es.length := by
  induction es with
  | nil => rfl
  | cons e tl ih => simp [indexBytes_cons, length_encodeU32, ih]; omega

theorem sum_lensOf_fst (es : BlobMap) :
    ((lensOf es).map Prod.fst).sum = (namesJoin es).length := by
  induction es with
  | nil => rfl
  | cons e tl ih => simp [lensOf, namesJoin_cons, List.map_cons] at ih ⊢; omega

theorem length_encodeBlob (es : BlobMap) :
    (encodeBlob es).length =
      4 + 8 * es.length + (namesJoin es).length + (valuesJoin es).length := by
  simp [encodeBlob, length_encodeU32, length_indexBytes]
  omega

theorem readIndex_encode (es : BlobMap) :
    ∀ (pre rest : Bytes),
      (∀ e ∈ es, e.1.length < 2 ^ 32 ∧ e.2.length < 2 ^ 32) →
      readIndex (pre ++ indexBytes es ++ rest) pre.length es.length =
        some (lensOf es, pre.length + 8 * es.length) := by
  induction es with
  | nil => intro pre rest _; simp [indexBytes, readIndex, lensOf]
  | cons e tl ih =>
    intro pre rest hb
    have hb1 := hb e (List.mem_cons_self e tl)
    have hdata : pre ++ indexBytes (e :: tl) ++ rest =
        pre ++ encodeU32 e.1.length ++
          (encodeU32 e.2.length ++ (indexBytes tl ++ rest)) := by
      simp [indexBytes_cons]
    have hdata2 : pre ++ indexBytes (e :: tl) ++ rest =
        (pre ++ encodeU32 e.1.length) ++ encodeU32 e.2.length ++ (indexBytes tl ++ rest) := by
      simp [indexBytes_cons]
    have hdata3 : pre ++ indexBytes (e :: tl) ++ rest =
        (pre ++ encodeU32 e.1.length ++ encodeU32 e.2.length) ++ indexBytes tl ++ rest := by
      simp [indexBytes_cons]
    have h1 : readU32 (pre ++ indexBytes (e :: tl) ++ rest) pre.length = some e.1.length := by
      rw [hdata]; exact readU32_at pre _ hb1.1
    have h2 : readU32 (pre ++ indexBytes (e :: tl) ++ rest) (pre.length + 4) =
        some e.2.length := by
      rw [hdata2]
      have : pre.length + 4 = (pre ++ encodeU32 e.1.length).length := by
        simp [length_encodeU32]
      rw [this]
      exact readU32_at _ _ hb1.2
    have h3 : readIndex (pre ++ indexBytes (e :: tl) ++ rest) (pre.length + 8) tl.length =
        some (lensOf tl, pre.length + 8 + 8 * tl.length) := by
      rw [hdata3]
      have : pre.length + 8 = (pre ++ encodeU32 e.1.length ++ encodeU32 e.2.length).length := by
        simp [length_encodeU32]
      rw [this]
      exact ih _ _ (fun x hx => hb x (List.mem_cons_of_mem e hx))
    show readIndex _ pre.length (tl.length + 1) = _
    rw [readIndex, h1, h2, h3]
    simp [lensOf]
    omega

theorem buildMap_encode (data : Bytes) (es : BlobMap) :
    ∀ (namePos valuesStart valueOff : Nat) (acc : BlobMap) (tailN tailV : Bytes),
      data.drop namePos = namesJoin es ++ tailN →
      data.drop (valuesStart + valueOff) = valuesJoin es ++ tailV →
      namePos ≤ data.length → valuesStart + valueOff ≤ data.length →
      buildMap data valuesStart (lensOf es) namePos valueOff acc =
        some (insertAll acc es) := by
  induction es with
  | nil => intro namePos valuesStart valueOff acc tailN tailV _ _ _ _; rfl
  | cons e tl ih =>
    intro namePos valuesStart valueOff acc tailN tailV hn hv hnb hvb
    rw [namesJoin_cons, List.append_assoc] at hn
    rw [valuesJoin_cons, List.append_assoc] at hv
    have hnlen : (data.drop namePos).length = data.length - namePos := by simp
    have hvlen : (data.drop (valuesStart + valueOff)).length =
        data.length - (valuesStart + valueOff) := by simp
    have hnb' : namePos + e.1.length ≤ data.length := by
      rw [hn] at hnlen; simp at hnlen; omega
    have hvb' : valuesStart + valueOff + e.2.length ≤ data.length := by
      rw [hv] at hvlen; simp at hvlen; omega
    have hname : sliceAt data namePos e.1.length = some e.1 := by
      rw [sliceAt, if_pos hnb', hn, List.take_left]
    have hvalue : sliceAt data (valuesStart + valueOff) e.2.length = some e.2 := by
      rw [sliceAt, if_pos hvb', hv, List.take_left]
    have hn2 : data.drop (namePos + e.1.length) = namesJoin tl ++ tailN := by
      rw [← List.drop_drop, hn, List.drop_left]
    have hv2 : data.drop (valuesStart + (valueOff + e.2.length)) =
        valuesJoin tl ++ tailV := by
      rw [show valuesStart + (valueOff + e.2.length) =
        (valuesStart + valueOff) + e.2.length from by omega,
        ← List.drop_drop, hv, List.drop_left]
    show buildMap data valuesStart ((e.1.length, e.2.length) :: lensOf tl) namePos valueOff acc
        = _
    rw [buildMap, hname, hvalue]
    dsimp only
    rw [ih (namePos + e.1.length) valuesStart (valueOff + e.2.length) _ tailN tailV hn2 hv2
        (by omega) (by omega), insertAll_cons]

/-- Round-trip at the parser level: parsing an encoded blob succeeds and
yields the fold of `HashMap::insert` over the entries, in entry order. -/
theorem parse_encodeBlob (es : BlobMap) (hN : es.length < 2 ^ 32)
    (hb : ∀ e ∈ es, e.1.length < 2 ^ 32 ∧ e.2.length < 2 ^ 32) :
    parse_modules_blob (encodeBlob es) = .ok (insertAll [] es) := by
  have hlen := length_encodeBlob es
  have hge : ¬(encodeBlob es).length < 4 := by omega
  have hcount : readU32 (encodeBlob es) 0 = some es.length := by
    have : encodeBlob es = ([] : Bytes) ++ encodeU32 es.length ++
        (indexBytes es ++ (namesJoin es ++ valuesJoin es)) := by
      simp [encodeBlob]
    rw [this]
    exact readU32_at [] _ hN
  have hidx : readIndex (encodeBlob es) 4 es.length =
      some (lensOf es, 4 + 8 * es.length) := by
    have heq : encodeBlob es = encodeU32 es.length ++ indexBytes es ++
        (namesJoin es ++ valuesJoin es) := by
      simp [encodeBlob]
    have h4 : (4 : Nat) = (encodeU32 es.length).length := (length_encodeU32 _).symm
    rw [heq]
    conv_lhs => rw [h4]
    rw [readIndex_encode es _ _ hb, length_encodeU32]
  have hdropN : (encodeBlob es).drop (4 + 8 * es.length) =
      namesJoin es ++ valuesJoin es := by
    have : encodeBlob es = (encodeU32 es.length ++ indexBytes es) ++
        (namesJoin es ++ valuesJoin es) := by
      simp [encodeBlob]
    rw [this]
    exact List.drop_left' (by simp [length_encodeU32, length_indexBytes])
  have hdropV : (encodeBlob es).drop (4 + 8 * es.length + (namesJoin es).length + 0) =
      valuesJoin es ++ [] := by
    have : encodeBlob es = (encodeU32 es.length ++ indexBytes es ++ namesJoin es) ++
        valuesJoin es := by
      simp [encodeBlob]
    rw [this, List.append_nil]
    exact List.drop_left' (by simp [length_encodeU32, length_indexBytes]; omega)
  have hbuild := buildMap_encode (encodeBlob es) es (4 + 8 * es.length)
    (4 + 8 * es.length + (namesJoin es).length) 0 [] (valuesJoin es) []
    hdropN hdropV (by omega) (by omega)
  rw [parse_modules_blob, if_neg hge, hcount]
  dsimp only
  rw [hidx]
  dsimp only
  simp only [sum_lensOf_fst]
  rw [hbuild]

theorem getD_mem_of_lt {l : Bytes} {n : Nat} (h : n < l.length) : l.getD n 0 ∈ l := by
  rw [List.getD_eq_getElem l 0 h]
  exact List.getElem_mem h

theorem getD_take {l : Bytes} {m j : Nat} (h : j < m) :
    (l.take m).getD j 0 = l.getD j 0 := by
  rw [List.getD_eq_getElem?_getD, List.getD_eq_getElem?_getD, List.getElem?_take, if_pos h]

theorem getD_append_len (x : Bytes) (c : Nat) : (x ++ [c]).getD x.length 0 = c := by
  rw [List.getD_eq_getElem?_getD, List.getElem?_append_right (le_refl _)]
  simp

theorem take_succ_getD {l : Bytes} {n : Nat} (h : n < l.length) :
    l.take (n + 1) = l.take n ++ [l.getD n 0] := by
  rw [List.take_succ]
  congr 1
  rw [List.getD_eq_getElem?_getD]
  cases hg : l[n]? with
  | none => simp [List.getElem?_eq_none_iff] at hg; omega
  | some v => simp [hg, Option.toList]

theorem rfindDot_lt {l : Bytes} {i : Nat} (h : rfindDot l = some i) : i < l.length := by
  induction l generalizing i with
  | nil => simp [rfindDot] at h
  | cons b rest ih =>
    simp only [rfindDot] at h
    cases hr : rfindDot rest with
    | some j =>
      rw [hr] at h
      have := ih hr
      simp at h
      simp [List.length_cons]
      omega
    | none =>
      rw [hr] at h
      by_cases hb : b = 46
      · simp [hb] at h
        simp [List.length_cons]
        omega
      · simp [hb] at h

theorem rfindDot_getD {l : Bytes} {i : Nat} (h : rfindDot l = some i) :
    l.getD i 0 = 46 := by
  induction l generalizing i with
  | nil => simp [rfindDot] at h
  | cons b rest ih =>
    simp only [rfindDot] at h
    cases hr : rfindDot rest with
    | some j =>
      rw [hr] at h
      simp at h
      subst h
      rw [List.getD_cons_succ]
      exact ih hr
    | none =>
      rw [hr] at h
      by_cases hb : b = 46
      · simp [hb] at h
        subst h
        rw [List.getD_cons_zero]
        exact hb
      · simp [hb] at h

theorem not_mem_of_rfindDot_none {l : Bytes} (h : rfindDot l = none) : 46 ∉ l := by
  induction l with
  | nil => simp
  | cons b rest ih =>
    simp only [rfindDot] at h
    cases hr : rfindDot rest with
    | some j => rw [hr] at h; simp at h
    | none =>
      rw [hr] at h
      by_cases hb : b = 46
      · simp [hb] at h
      · simp only [List.mem_cons]
        push_neg
        exact ⟨fun hc => hb hc.symm, ih hr⟩

theorem rfindDot_max {l : Bytes} {i j : Nat} (h : rfindDot l = some i)
    (hij : i < j) (hj : j < l.length) : l.getD j 0 ≠ 46 := by
  induction l generalizing i j with
  | nil => simp at hj
  | cons b rest ih =>
    simp only [rfindDot] at h
    cases hr : rfindDot rest with
    | some k =>
      rw [hr] at h
      simp at h
      obtain ⟨j', rfl⟩ : ∃ j', j = j' + 1 := ⟨j - 1, by omega⟩
      rw [List.getD_cons_succ]
      exact ih hr (by omega) (by simpa using hj)
    | none =>
      rw [hr] at h
      by_cases hb : b = 46
      · simp [hb] at h
        obtain ⟨j', rfl⟩ : ∃ j', j = j' + 1 := ⟨j - 1, by omega⟩
        rw [List.getD_cons_succ]
        intro hc
        exact not_mem_of_rfindDot_none hr (hc ▸ getD_mem_of_lt (by simpa using hj))
      · simp [hb] at h

theorem dotParent_iff {x n : Bytes} :
    dotParent x n ↔
      x.length < n.length ∧ n.take x.length = x ∧ n.getD x.length 0 = 46 := by
  constructor
  · intro h
    unfold dotParent at h
    have hlen : (n.take (x.length + 1)).length = (x ++ [46]).length := by rw [h]
    simp at hlen
    have hxn : x.length < n.length := by omega
    refine ⟨hxn, ?_, ?_⟩
    · have h2 := congrArg (List.take x.length) h
      rw [List.take_take, Nat.min_eq_left (by omega),
        List.take_left' rfl] at h2
      exact h2
    · have h3 := congrArg (fun l : Bytes => l.getD x.length 0) h
      simp only at h3
      rw [getD_take (by omega), getD_append_len] at h3
      exact h3
  · rintro ⟨h1, h2, h3⟩
    unfold dotParent
    rw [take_succ_getD h1, h2, h3]

theorem length_take_of_lt {l : Bytes} {m : Nat} (h : m < l.length) :
    (l.take m).length = m := by
  simp
  omega

theorem dotParent_step {x name : Bytes} {idx : Nat} (hfind : rfindDot name = some idx) :
    dotParent x name ↔ x = name.take idx ∨ dotParent x (name.take idx) := by
  have hidx := rfindDot_lt hfind
  have hdot := rfindDot_getD hfind
  constructor
  · intro h
    rw [dotParent_iff] at h
    obtain ⟨h1, h2, h3⟩ := h
    have hle : x.length ≤ idx := by
      by_contra hlt
      exact rfindDot_max hfind (by omega) h1 h3
    rcases Nat.eq_or_lt_of_le hle with heq | hlt
    · left
      rw [← heq, h2]
    · right
      rw [dotParent_iff]
      refine ⟨?_, ?_, ?_⟩
      · rw [length_take_of_lt hidx]; exact hlt
      · rw [List.take_take, Nat.min_eq_left (by omega)]; exact h2
      · rw [getD_take hlt]; exact h3
  · rintro (rfl | h)
    · rw [dotParent_iff]
      have hlen := length_take_of_lt hidx
      refine ⟨by omega, ?_, ?_⟩
      · rw [hlen]
      · rw [hlen]; exact hdot
    · rw [dotParent_iff] at h ⊢
      obtain ⟨h1, h2, h3⟩ := h
      rw [length_take_of_lt hidx] at h1
      refine ⟨by omega, ?_, ?_⟩
      · rw [List.take_take, Nat.min_eq_left (by omega)] at h2
        exact h2
      · rw [getD_take h1] at h3
        exact h3

theorem mem_populate_packages {x : Bytes} (acc : Finset Bytes) (name : Bytes) :
    x ∈ populate_packages acc name ↔ x ∈ acc ∨ dotParent x name := by
  induction acc, name using populate_packages.induct with
  | case1 packages name idx hfind ih =>
    rw [populate_packages, hfind, ih, Finset.mem_insert, dotParent_step hfind]
    tauto
  | case2 packages name hfind =>
    rw [populate_packages, hfind]
    have hnp : ¬dotParent x name := by
      rw [dotParent_iff]
      rintro ⟨h1, _, h3⟩
      exact not_mem_of_rfindDot_none hfind (h3 ▸ getD_mem_of_lt h1)
    tauto

theorem mem_foldl_populate {x : Bytes} (names : List Bytes) :
    ∀ acc, x ∈ names.foldl populate_packages acc ↔
      x ∈ acc ∨ ∃ n ∈ names, dotParent x n := by
  induction names with
  | nil => simp
  | cons n tl ih =>
    intro acc
    rw [List.foldl_cons, ih, mem_populate_packages]
    simp only [List.mem_cons, exists_eq_or_imp]
    tauto

/-- Membership in the derived package set: exactly the names `x` such
that some registered name begins with `x` followed by `.`. -/
theorem mem_derivePackages {x : Bytes} {names : List Bytes} :
    x ∈ derivePackages names ↔ ∃ n ∈ names, dotParent x n := by
  rw [derivePackages, mem_foldl_populate]
  simp

theorem readU32_append {data extra : Bytes} {pos n : Nat}
    (h : readU32 data pos = some n) : readU32 (data ++ extra) pos = some n := by
  rw [readU32] at h
  split at h
  case isFalse => simp at h
  case isTrue hle =>
    rw [readU32, if_pos (by simp; omega)]
    rw [List.drop_append_of_le_length (by omega),
      List.take_append_of_le_length (by simp; omega)]
    exact h

theorem sliceAt_append {data extra r : Bytes} {s n : Nat}
    (h : sliceAt data s n = some r) : sliceAt (data ++ extra) s n = some r := by
  rw [sliceAt] at h
  split at h
  case isFalse => simp at h
  case isTrue hle =>
    rw [sliceAt, if_pos (by simp; omega)]
    rw [List.drop_append_of_le_length (by omega),
      List.take_append_of_le_length (by simp; omega)]
    exact h

theorem readIndex_append {data extra : Bytes} :
    ∀ {cnt pos : Nat} {res : List (Nat × Nat) × Nat},
      readIndex data pos cnt = some res → readIndex (data ++ extra) pos cnt = some res := by
  intro cnt
  induction cnt with
  | zero => intro pos res h; simpa [readIndex] using h
  | succ n ih =>
    intro pos res h
    rw [readIndex] at h ⊢
    cases h1 : readU32 data pos with
    | none => rw [h1] at h; simp at h
    | some a =>
      rw [h1] at h
      cases h2 : readU32 data (pos + 4) with
      | none => rw [h2] at h; simp at h
      | some b =>
        rw [h2] at h
        dsimp only at h
        cases h3 : readIndex data (pos + 8) n with
        | none => rw [h3] at h; simp at h
        | some pr =>
          rw [h3] at h
          rw [readU32_append h1, readU32_append h2]
          dsimp only
          rw [ih h3]
          exact h

theorem buildMap_append {data extra : Bytes} {vs : Nat} :
    ∀ {idx : List (Nat × Nat)} {np vo : Nat} {acc res : BlobMap},
      buildMap data vs idx np vo acc = some res →
      buildMap (data ++ extra) vs idx np vo acc = some res := by
  intro idx
  induction idx with
  | nil => intro np vo acc res h; simpa [buildMap] using h
  | cons e rest ih =>
    intro np vo acc res h
    obtain ⟨nl, vl⟩ := e
    rw [buildMap] at h ⊢
    cases h1 : sliceAt data np nl with
    | none => rw [h1] at h; simp at h
    | some nm =>
      rw [h1] at h
      cases h2 : sliceAt data (vs + vo) vl with
      | none => rw [h2] at h; simp at h
      | some vb =>
        rw [h2] at h
        dsimp only at h
        rw [sliceAt_append h1, sliceAt_append h2]
        dsimp only
        exact ih h

theorem parse_append {data extra : Bytes} {m : BlobMap}
    (h : parse_modules_blob data = .ok m) :
    parse_modules_blob (data ++ extra) = .ok m := by
  rw [parse_modules_blob] at h
  by_cases h4 : data.length < 4
  · rw [if_pos h4] at h; simp at h
  · rw [if_neg h4] at h
    rw [parse_modules_blob, if_neg (by simp; omega)]
    cases hc : readU32 data 0 with
    | none => rw [hc] at h; simp at h
    | some count =>
      rw [hc] at h
      dsimp only at h
      rw [readU32_append hc]
      dsimp only
      cases hi : readIndex data 4 count with
      | none => rw [hi] at h; simp at h
      | some pr =>
        obtain ⟨index, indexEnd⟩ := pr
        rw [hi] at h
        dsimp only at h
        rw [readIndex_append hi]
        dsimp only
        cases hb : buildMap data (indexEnd + (index.map Prod.fst).sum) index indexEnd 0 [] with
        | none => rw [hb] at h; simp at h
        | some res =>
          rw [hb] at h
          rw [buildMap_append hb]
          exact h

theorem buildMap_some_le {data : Bytes} {vs : Nat} :
    ∀ {idx : List (Nat × Nat)} {np vo : Nat} {acc res : BlobMap},
      idx ≠ [] →
      buildMap data vs idx np vo acc = some res →
      vs + vo + (idx.map Prod.snd).sum ≤ data.length := by
  intro idx
  induction idx with
  | nil => intro np vo acc res hne; exact absurd rfl hne
  | cons e rest ih =>
    intro np vo acc res _ h
    obtain ⟨nl, vl⟩ := e
    rw [buildMap] at h
    cases h1 : sliceAt data np nl with
    | none => rw [h1] at h; simp at h
    | some nm =>
      rw [h1] at h
      cases h2 : sliceAt data (vs + vo) vl with
      | none => rw [h2] at h; simp at h
      | some vb =>
        rw [h2] at h
        dsimp only at h
        have hvb : vs + vo + vl ≤ data.length := by
          rw [sliceAt] at h2
          split at h2
          case isTrue hle => exact hle
          case isFalse => simp at h2
        rcases List.eq_nil_or_concat rest with hrest | _
        · subst hrest
          simpa using hvb
        · have := ih (by rintro rfl; simp_all) h
          simp only [List.map_cons, List.sum_cons]
          omega

theorem mapContains_iff {k : Bytes} {m : BlobMap} :
    mapContains k m = true ↔ k ∈ mapKeys m := by
  simp [mapContains, mem_mapKeys_iff]

theorem packages_mkModulesType (pym pycm : BlobMap) :
    (mkModulesType pym pycm).packages = derivePackages (mapKeys pym ++ mapKeys pycm) := by
  simp [mkModulesType, derivePackages, List.foldl_append]

/-- C1: encoding any entry list with pairwise-distinct names (each
length field representable as a `u32`) into a blob per the §3 layout and
parsing it back succeeds, yields a mapping with exactly `N` entries, and
maps every name to a payload byte-identical to the original — for every
ordering of the entries, since `es` ranges over all orderings. -/
theorem claim_c1 (es : BlobMap) (hN : es.length < 2 ^ 32)
    (hb : ∀ e ∈ es, e.1.length < 2 ^ 32 ∧ e.2.length < 2 ^ 32)
    (hnd : (es.map Prod.fst).Nodup) :
    ∃ m, parse_modules_blob (encodeBlob es) = .ok m ∧
      m.length = es.length ∧
      ∀ e ∈ es, mapLookup e.1 m = some e.2 := by
  refine ⟨insertAll [] es, parse_encodeBlob es hN hb, ?_, ?_⟩
  · rw [length_insertAll_nil, List.dedup_eq_self.mpr hnd, List.length_map]
  · intro e he
    exact mapLookup_insertAll_mem [] (by simpa using he) hnd

/-- C1 witness: the round-trip at the concrete entry list
`[("a.b", "xyz"), ("a", "hi")]`. -/
theorem claim_c1_witness :
    ∃ m, parse_modules_blob
        (encodeBlob [([97, 46, 98], [120, 121, 122]), ([97], [104, 105])]) = .ok m ∧
      m.length = 2 ∧
      ∀ e ∈ [([97, 46, 98], [120, 121, 122]), ([97], [104, 105])],
        mapLookup e.1 m = some e.2 :=
  claim_c1 [([97, 46, 98], [120, 121, 122]), ([97], [104, 105])]
    (by norm_num) (by decide) (by decide)

/-- C8: a blob whose index repeats a name parses successfully; the
mapping binds the duplicated name to the payload of the last occurrence
in index order (so every earlier occurrence's payload is overwritten),
and the entry count equals the number of distinct names. -/
theorem claim_c8 (pre post : BlobMap) (k v : Bytes)
    (_hdup : k ∈ pre.map Prod.fst)
    (hpost : k ∉ post.map Prod.fst)
    (hN : (pre ++ (k, v) :: post).length < 2 ^ 32)
    (hb : ∀ e ∈ pre ++ (k, v) :: post, e.1.length < 2 ^ 32 ∧ e.2.length < 2 ^ 32) :
    ∃ m, parse_modules_blob (encodeBlob (pre ++ (k, v) :: post)) = .ok m ∧
      mapLookup k m = some v ∧
      m.length = (((pre ++ (k, v) :: post).map Prod.fst).dedup).length := by
  refine ⟨insertAll [] (pre ++ (k, v) :: post),
    parse_encodeBlob _ hN hb, ?_, length_insertAll_nil _⟩
  rw [insertAll_append, insertAll_cons,
    mapLookup_insertAll_of_not_mem _ hpost]
  exact mapLookup_insert_self _ _ _

/-- C8 witness: the blob encoding `[("a", [1]), ("a", [2])]` parses to a
one-entry map binding `"a"` to `[2]`. -/
theorem claim_c8_witness :
    ∃ m, parse_modules_blob (encodeBlob [([97], [1]), ([97], [2])]) = .ok m ∧
      mapLookup [97] m = some [2] ∧
      m.length = ((([([97], [1]), ([97], [2])] : BlobMap).map Prod.fst).dedup).length :=
  claim_c8 [([97], [1])] [] [97] [2] (by decide) (by decide) (by norm_num) (by decide)

/-- C10: the parser never checks that the declared sections span the
whole buffer — appending arbitrary extra bytes to a blob that parses
successfully yields a blob that still parses to exactly the same
mapping. -/
theorem claim_c10 (data extra : Bytes) (m : BlobMap)
    (h : parse_modules_blob data = .ok m) :
    parse_modules_blob (data ++ extra) = .ok m :=
  parse_append h

/-- C10 witness: the empty-count blob with trailing junk still parses
to the empty mapping. -/
theorem claim_c10_witness :
    parse_modules_blob ([0, 0, 0, 0] ++ [9, 9, 9]) = .ok [] :=
  claim_c10 [0, 0, 0, 0] [9, 9, 9] [] rfl

/-- C3 counterexample: on the 12-byte blob `count=1`,
`name_length=5`, `data_length=5` (sections extending past the buffer),
`parse_modules_blob` does not return a structured `Malformed` error —
its error type has no such variant.  The run ends in the `fatal`
outcome, the model of the Rust slice-bounds panic, so the claim that a
`Malformed` error is returned is false on the code. -/
theorem claim_c3_counterexample :
    parse_modules_blob [1, 0, 0, 0, 5, 0, 0, 0, 5, 0, 0, 0] = .error ParseErr.fatal := rfl

/-- C3 (amended): a blob of length ≥ 4 whose index declares name and
data lengths whose sections extend beyond the buffer makes
`parse_modules_blob` abort with a panic (the `fatal` outcome: an
out-of-range slice), never reading out of bounds and never returning a
successful mapping — but it reports no `Malformed` error, because the
code has no such error path. -/
theorem claim_c3_amended (data : Bytes) (count : Nat) (index : List (Nat × Nat))
    (indexEnd : Nat)
    (hcount : readU32 data 0 = some count)
    (hindex : readIndex data 4 count = some (index, indexEnd))
    (hne : index ≠ [])
    (hover : data.length < indexEnd + (index.map Prod.fst).sum + (index.map Prod.snd).sum) :
    parse_modules_blob data = .error ParseErr.fatal := by
  have h4 : ¬data.length < 4 := by
    rw [readU32] at hcount
    split at hcount
    case isTrue hle => omega
    case isFalse => simp at hcount
  rw [parse_modules_blob, if_neg h4, hcount]
  dsimp only
  rw [hindex]
  dsimp only
  cases hbuild : buildMap data (indexEnd + (index.map Prod.fst).sum) index indexEnd 0 [] with
  | none => rfl
  | some res =>
    have := buildMap_some_le hne hbuild
    omega

/-- C3 witness: the amended statement applied to the concrete 12-byte
blob `count=1`, `name_length=5`, `data_length=5`. -/
theorem claim_c3_witness :
    parse_modules_blob [1, 0, 0, 0, 5, 0, 0, 0, 5, 0, 0, 0] = .error ParseErr.fatal :=
  claim_c3_amended [1, 0, 0, 0, 5, 0, 0, 0, 5, 0, 0, 0] 1 [(5, 5)] 12
    rfl rfl (by simp) (by norm_num)

/-- C2: in a registry built from two mappings, `is_package x` is true
iff some registered name (a key of either mapping) begins with `x`
followed by `.`; in particular, for a registry whose only key is
`"a.b.c"`, `is_package` is true exactly on `"a.b"` and `"a"`. -/
theorem claim_c2 :
    (∀ (pym pycm : BlobMap) (x : Bytes),
      (mkModulesType pym pycm).is_package x = true ↔
        ∃ n, (n ∈ mapKeys pym ∨ n ∈ mapKeys pycm) ∧ dotParent x n) ∧
    ((mkModulesType [([97, 46, 98, 46, 99], [1])] []).is_package [97, 46, 98] = true ∧
      (mkModulesType [([97, 46, 98, 46, 99], [1])] []).is_package [97] = true ∧
      (mkModulesType [([97, 46, 98, 46, 99], [1])] []).is_package [97, 46, 98, 46, 99]
        = false ∧
      (mkModulesType [([97, 46, 98, 46, 99], [1])] []).is_package [120] = false) := by
  have hgen : ∀ (pym pycm : BlobMap) (x : Bytes),
      (mkModulesType pym pycm).is_package x = true ↔
        ∃ n, (n ∈ mapKeys pym ∨ n ∈ mapKeys pycm) ∧ dotParent x n := by
    intro pym pycm x
    rw [ModulesType.is_package, decide_eq_true_eq, packages_mkModulesType,
      mem_derivePackages]
    constructor
    · rintro ⟨n, hn, hd⟩
      exact ⟨n, List.mem_append.mp hn, hd⟩
    · rintro ⟨n, hn, hd⟩
      exact ⟨n, List.mem_append.mpr hn, hd⟩
  refine ⟨hgen, ?_, ?_, ?_, ?_⟩
  · rw [hgen]
    exact ⟨[97, 46, 98, 46, 99], Or.inl (by simp [mapKeys]), by decide⟩
  · rw [hgen]
    exact ⟨[97, 46, 98, 46, 99], Or.inl (by simp [mapKeys]), by decide⟩
  · rw [Bool.eq_false_iff]
    rw [Ne, hgen]
    rintro ⟨n, hn | hn, hd⟩
    · simp [mapKeys] at hn
      subst hn
      exact absurd hd (by decide)
    · simp [mapKeys] at hn
  · rw [Bool.eq_false_iff]
    rw [Ne, hgen]
    rintro ⟨n, hn | hn, hd⟩
    · simp [mapKeys] at hn
      subst hn
      exact absurd hd (by decide)
    · simp [mapKeys] at hn

/-- C7: the package derivation is a pure set union over the per-name
contributions — invariant under duplicate names, under any reordering
(in particular reversal), and under processing the list twice. -/
theorem claim_c7 :
    (∀ l l' : List Bytes, (∀ x, x ∈ l ↔ x ∈ l') →
      derivePackages l = derivePackages l') ∧
    (∀ (n : Bytes) (l : List Bytes),
      derivePackages (n :: n :: l) = derivePackages (n :: l)) ∧
    (∀ l : List Bytes, derivePackages l.reverse = derivePackages l) ∧
    (∀ l : List Bytes, derivePackages (l ++ l) = derivePackages l) := by
  have hext : ∀ l l' : List Bytes, (∀ x, x ∈ l ↔ x ∈ l') →
      derivePackages l = derivePackages l' := by
    intro l l' hmem
    apply Finset.ext
    intro x
    rw [mem_derivePackages, mem_derivePackages]
    constructor
    · rintro ⟨n, hn, hd⟩; exact ⟨n, (hmem n).mp hn, hd⟩
    · rintro ⟨n, hn, hd⟩; exact ⟨n, (hmem n).mpr hn, hd⟩
  refine ⟨hext, ?_, ?_, ?_⟩
  · intro n l
    apply hext
    intro x
    simp only [List.mem_cons]
    tauto
  · intro l
    apply hext
    intro x
    exact List.mem_reverse
  · intro l
    apply hext
    intro x
    simp only [List.mem_append]
    tauto

/-- C7 witness: the extensionality part applied to a duplicated
singleton list. -/
theorem claim_c7_witness :
    derivePackages [[97, 46, 98]] = derivePackages [[97, 46, 98], [97, 46, 98]] :=
  claim_c7.1 [[97, 46, 98]] [[97, 46, 98], [97, 46, 98]] (by intro x; simp)

/-- C4: `has_module` and `is_package` are total boolean queries: for
every registry and name they return a boolean (never an error), with
`has_module` true iff the name is a key of the source or compiled-code
mapping and `is_package` true iff the name is in the derived package
set. -/
theorem claim_c4 (m : ModulesType) (name : Bytes) :
    (m.has_module name = true ↔
      name ∈ mapKeys m.py_modules ∨ name ∈ mapKeys m.pyc_modules) ∧
    (m.is_package name = true ↔ name ∈ m.packages) ∧
    (m.has_module name = true ∨ m.has_module name = false) ∧
    (m.is_package name = true ∨ m.is_package name = false) := by
  refine ⟨?_, ?_, ?_, ?_⟩
  · rw [ModulesType.has_module, Bool.or_eq_true, mapContains_iff, mapContains_iff]
  · rw [ModulesType.is_package, decide_eq_true_eq]
  · cases m.has_module name
    · exact Or.inr rfl
    · exact Or.inl rfl
  · cases m.is_package name
    · exact Or.inr rfl
    · exact Or.inl rfl

/-- C5: `make_modules` parses the source blob first and the
compiled-code blob second, returns the first parse error it hits — even
when the compiled blob is also malformed — and produces a registry iff
both parses succeed (no partial registry). -/
theorem claim_c5 :
    (∀ (s c : Bytes) (e : ParseErr),
      parse_modules_blob s = .error e → make_modules s c = .error e) ∧
    (∀ (s c : Bytes) (ps : BlobMap) (e : ParseErr),
      parse_modules_blob s = .ok ps → parse_modules_blob c = .error e →
        make_modules s c = .error e) ∧
    (∀ s c : Bytes, (∃ r, make_modules s c = .ok r) ↔
      (∃ a, parse_modules_blob s = .ok a) ∧ (∃ b, parse_modules_blob c = .ok b)) := by
  refine ⟨?_, ?_, ?_⟩
  · intro s c e h
    rw [make_modules, h]
  · intro s c ps e hs hc
    rw [make_modules, hs]
    dsimp only
    rw [hc]
  · intro s c
    constructor
    · rintro ⟨r, hr⟩
      rw [make_modules] at hr
      cases hs : parse_modules_blob s with
      | error e => rw [hs] at hr; simp at hr
      | ok a =>
        rw [hs] at hr
        dsimp only at hr
        cases hc : parse_modules_blob c with
        | error e => rw [hc] at hr; simp at hr
        | ok b => exact ⟨⟨a, rfl⟩, ⟨b, rfl⟩⟩
    · rintro ⟨⟨a, ha⟩, ⟨b, hb⟩⟩
      rw [make_modules, ha]
      dsimp only
      rw [hb]
      exact ⟨mkModulesType a b, rfl⟩

/-- C5 witness: a too-small source blob short-circuits construction
with that blob's parse error, whatever the compiled blob holds. -/
theorem claim_c5_witness :
    make_modules [0] [0, 0, 0, 0] = .error ParseErr.tooSmall :=
  claim_c5.1 [0] [0, 0, 0, 0] ParseErr.tooSmall rfl

/-- C6: `get_source` returns the stored payload of the name in the
source mapping and `KeyError` exactly when the name is absent;
`get_code` behaves identically against the compiled-code mapping.  Both
are pure queries on an immutable registry, so a failed lookup cannot
affect the registry or any other query. -/
theorem claim_c6 (m : ModulesType) (name : Bytes) :
    (∀ p, m.get_source name = .ok p ↔ mapLookup name m.py_modules = some p) ∧
    (m.get_source name = .error .keyError ↔ mapLookup name m.py_modules = none) ∧
    (∀ p, m.get_code name = .ok p ↔ mapLookup name m.pyc_modules = some p) ∧
    (m.get_code name = .error .keyError ↔ mapLookup name m.pyc_modules = none) := by
  refine ⟨?_, ?_, ?_, ?_⟩
  · intro p
    rw [ModulesType.get_source]
    cases hl : mapLookup name m.py_modules <;> simp
  · rw [ModulesType.get_source]
    cases hl : mapLookup name m.py_modules <;> simp
  · intro p
    rw [ModulesType.get_code]
    cases hl : mapLookup name m.pyc_modules <;> simp
  · rw [ModulesType.get_code]
    cases hl : mapLookup name m.pyc_modules <;> simp

/-- C9: the 4-byte blob encoding `count=0` parses to the empty mapping;
the registry built from two such blobs answers `false` to every
`has_module` and `is_package` query; and every blob shorter than 4
bytes fails with the too-small error. -/
theorem claim_c9 :
    (parse_modules_blob [0, 0, 0, 0] = .ok []) ∧
    (make_modules [0, 0, 0, 0] [0, 0, 0, 0] = .ok (mkModulesType [] [])) ∧
    (∀ name : Bytes, (mkModulesType [] []).has_module name = false ∧
      (mkModulesType [] []).is_package name = false) ∧
    (∀ data : Bytes, data.length < 4 → parse_modules_blob data = .error .tooSmall) := by
  refine ⟨rfl, rfl, ?_, ?_⟩
  · intro name
    constructor
    · rfl
    · rw [ModulesType.is_package]
      simp [mkModulesType, mapKeys]
  · intro data h
    rw [parse_modules_blob, if_pos h]

/-- C9 witness: a blob of length 2 fails with the too-small error. -/
theorem claim_c9_witness :
    parse_modules_blob [9, 9] = .error ParseErr.tooSmall :=
  claim_c9.2.2.2 [9, 9] (by norm_num)
